import Mathlib

/-!
Verification of the physical-memory VFS handlers of `client/vfs_handlers/memory.py`.

The handlers expose raw physical memory as a seekable byte stream over a sparse
region map: an ordered list of `(start, length)` runs.  Reads inside a run come
from the acquisition device; reads inside a gap are zero-filled.

Shallow embedding conventions:
* bytes are natural numbers, byte strings are `List Nat`;
* the acquisition device is a function `dev : Nat → Nat → List Nat`
  (`dev pos n` is what the device returns for a read of `n` bytes at absolute
  offset `pos`); a device that honours every request in full satisfies
  `(dev pos n).length = n`, and a device backed by a fixed memory image `mem`
  is `devOf mem`;
* the mutable cursor `self.offset` is threaded explicitly: stateful operations
  take the cursor as an argument and return the new cursor.

`WindowsMemory.Read`/`WindowsMemory._PartialRead` and
`OSXMemory.Read`/`OSXMemory._PartialRead` are textually identical algorithms
(only the device-access calls differ); they are embedded once as `Read` and
`PartialRead` below.
-/

namespace Grr

/-- Byte strings are lists of naturals. -/
abbrev Bytes := List Nat

/-- `_PartialRead`, the inner loop over `self.runs` (Windows) / `self.mmap`
(OSX), with the running `last_end` variable made an explicit argument
(initially 0).  For each run `(start, run_length)`:
if `last_end <= offset < start` the cursor is in a gap and
`"\x00" * min(length, start - offset)` is returned; if
`start <= offset < start + run_length` the device is positioned at `offset`
and `min(length, start + run_length - offset)` bytes are read from it and
returned as-is.  Falling off the loop returns `none` (Python returns `None`). -/
def PartialReadFrom (dev : Nat → Nat → Bytes) (offset length : Nat) :
    List (Nat × Nat) → Nat → Option Bytes
  | [], _ => none
  | (start, run_length) :: rest, last_end =>
    if last_end ≤ offset ∧ offset < start then
      some (List.replicate (min length (start - offset)) 0)
    else if start ≤ offset ∧ offset < start + run_length then
      some (dev offset (min length (start + run_length - offset)))
    else
      PartialReadFrom dev offset length rest (start + run_length)

/-- `_PartialRead` proper: the loop starts with `last_end = 0`. -/
def PartialRead (dev : Nat → Nat → Bytes) (offset length : Nat)
    (runs : List (Nat × Nat)) : Option Bytes :=
  PartialReadFrom dev offset length runs 0

/-- The value bound to `data` in one iteration of the `Read` loop:
`data = self._PartialRead(length)`, where the subsequent `if not data: break`
treats `None` and the empty string alike, so `None` is collapsed to `[]`. -/
def readStep (dev : Nat → Nat → Bytes) (runs : List (Nat × Nat))
    (offset length : Nat) : Bytes :=
  (PartialRead dev offset length runs).getD []

/-- `Read` of `WindowsMemory`/`OSXMemory`:
`while length > 0 and self.offset < self.size:` fetch a partial read, break if
it is empty, otherwise append it, advance the cursor by its length and decrease
the remaining `length` accordingly.  Returns the accumulated bytes together
with the final cursor. -/
def Read (dev : Nat → Nat → Bytes) (runs : List (Nat × Nat)) (size : Nat)
    (length offset : Nat) : Bytes × Nat :=
  if h : 0 < length ∧ offset < size then
    if hd : (readStep dev runs offset length).length = 0 then ([], offset)
    else
      ((readStep dev runs offset length) ++
         (Read dev runs size (length - (readStep dev runs offset length).length)
            (offset + (readStep dev runs offset length).length)).1,
       (Read dev runs size (length - (readStep dev runs offset length).length)
          (offset + (readStep dev runs offset length).length)).2)
  else ([], offset)
termination_by length
decreasing_by
  all_goals omega

/-- A region map is well formed below a lower bound `lb` when each run starts
at or after `lb` and the runs are pairwise non-overlapping in ascending order
(`run[i].start + run[i].length <= run[i+1].start`). -/
def Chained : Nat → List (Nat × Nat) → Prop
  | _, [] => True
  | lb, (s, l) :: rest => lb ≤ s ∧ Chained (s + l) rest

instance instDecidableChained (lb : Nat) (runs : List (Nat × Nat)) :
    Decidable (Chained lb runs) :=
  match runs with
  | [] => isTrue trivial
  | (s, l) :: rest =>
    @instDecidableAnd _ _ (Nat.decLe lb s) (instDecidableChained (s + l) rest)

/-- The end of the last run of a list, starting from lower bound `lb`
(`lb` itself if the list is empty). -/
def runsEndFrom : Nat → List (Nat × Nat) → Nat
  | lb, [] => lb
  | _, (s, l) :: rest => runsEndFrom (s + l) rest

/-- `last_run.start + last_run.length`, or 0 for an empty region map: the
spec's `total_size`. -/
def lastEnd (runs : List (Nat × Nat)) : Nat :=
  (runs.getLast?.map (fun r => r.1 + r.2)).getD 0

/-- The device view of a fixed memory image: reading `n` bytes at `pos`
returns bytes `mem pos, mem (pos+1), …, mem (pos+n-1)`. -/
def devOf (mem : Nat → Nat) (pos n : Nat) : Bytes :=
  (List.range n).map (fun i => mem (pos + i))

/-- The byte an ideal sparse view serves at address `a`: the image byte when
some run covers `a`, and 0 otherwise. -/
def byteAt (runs : List (Nat × Nat)) (mem : Nat → Nat) (a : Nat) : Nat :=
  if ∃ r ∈ runs, r.1 ≤ a ∧ a < r.1 + r.2 then mem a else 0

lemma runsEndFrom_le (lb : Nat) (runs : List (Nat × Nat)) (hc : Chained lb runs) :
    lb ≤ runsEndFrom lb runs := by
  induction runs generalizing lb with
  | nil => exact Nat.le_refl lb
  | cons r rest ih =>
    obtain ⟨s, l⟩ := r
    obtain ⟨hs, hc2⟩ := hc
    have := ih (s + l) hc2
    simp only [runsEndFrom]
    omega

lemma runsEndFrom_append (lb : Nat) (xs ys : List (Nat × Nat)) :
    runsEndFrom lb (xs ++ ys) = runsEndFrom (runsEndFrom lb xs) ys := by
  induction xs generalizing lb with
  | nil => rfl
  | cons r rest ih =>
    obtain ⟨s, l⟩ := r
    simp only [List.cons_append, runsEndFrom]
    exact ih (s + l)

lemma chained_append (lb : Nat) (xs ys : List (Nat × Nat)) :
    Chained lb (xs ++ ys) ↔ Chained lb xs ∧ Chained (runsEndFrom lb xs) ys := by
  induction xs generalizing lb with
  | nil => simp [Chained, runsEndFrom]
  | cons r rest ih =>
    obtain ⟨s, l⟩ := r
    simp only [List.cons_append, Chained, runsEndFrom, List.append_eq,
      ih (s + l), and_assoc]

lemma runsEndFrom_eq_lastEnd (runs : List (Nat × Nat)) (lb : Nat)
    (h : runs ≠ []) : runsEndFrom lb runs = lastEnd runs := by
  induction runs generalizing lb with
  | nil => exact absurd rfl h
  | cons r rest ih =>
    obtain ⟨s, l⟩ := r
    cases rest with
    | nil => simp [runsEndFrom, lastEnd]
    | cons r2 rest2 =>
      simp only [runsEndFrom, lastEnd, List.getLast?_cons_cons]
      have := ih (s + l) (by simp)
      simpa [lastEnd] using this

lemma runsEndFrom_zero_eq_lastEnd (runs : List (Nat × Nat)) :
    runsEndFrom 0 runs = lastEnd runs := by
  cases runs with
  | nil => rfl
  | cons r rest => exact runsEndFrom_eq_lastEnd (r :: rest) 0 (by simp)

lemma mem_end_le_runsEndFrom (lb : Nat) (runs : List (Nat × Nat))
    (hc : Chained lb runs) (r : Nat × Nat) (hr : r ∈ runs) :
    r.1 + r.2 ≤ runsEndFrom lb runs := by
  induction runs generalizing lb with
  | nil => cases hr
  | cons hd rest ih =>
    obtain ⟨s, l⟩ := hd
    obtain ⟨hs, hc2⟩ := hc
    rcases List.mem_cons.mp hr with h | h
    · subst h
      simpa [runsEndFrom] using runsEndFrom_le (s + l) rest hc2
    · simpa [runsEndFrom] using ih (s + l) hc2 h

lemma le_mem_start (lb : Nat) (runs : List (Nat × Nat))
    (hc : Chained lb runs) (r : Nat × Nat) (hr : r ∈ runs) :
    lb ≤ r.1 := by
  induction runs generalizing lb with
  | nil => cases hr
  | cons hd rest ih =>
    obtain ⟨s, l⟩ := hd
    obtain ⟨hs, hc2⟩ := hc
    rcases List.mem_cons.mp hr with h | h
    · subst h
      exact hs
    · have := ih (s + l) hc2 h
      omega

lemma PartialReadFrom_append (dev : Nat → Nat → Bytes) (offset length : Nat)
    (pre rest : List (Nat × Nat)) (lb : Nat) (hc : Chained lb pre)
    (h : runsEndFrom lb pre ≤ offset) :
    PartialReadFrom dev offset length (pre ++ rest) lb
      = PartialReadFrom dev offset length rest (runsEndFrom lb pre) := by
  induction pre generalizing lb with
  | nil => rfl
  | cons r pre2 ih =>
    obtain ⟨s, l⟩ := r
    obtain ⟨hs, hc2⟩ := hc
    have hsl : s + l ≤ runsEndFrom (s + l) pre2 := runsEndFrom_le _ _ hc2
    have hoff : s + l ≤ offset := by
      have : runsEndFrom lb ((s, l) :: pre2) = runsEndFrom (s + l) pre2 := rfl
      omega
    simp only [List.cons_append, PartialReadFrom]
    rw [if_neg (by omega), if_neg (by omega)]
    exact ih (s + l) hc2 (by exact h)

lemma PartialRead_gap (dev : Nat → Nat → Bytes) (pre post : List (Nat × Nat))
    (s l offset length : Nat) (hc : Chained 0 (pre ++ (s, l) :: post))
    (hlo : runsEndFrom 0 pre ≤ offset) (hhi : offset < s) :
    PartialRead dev offset length (pre ++ (s, l) :: post)
      = some (List.replicate (min length (s - offset)) 0) := by
  obtain ⟨hcpre, _⟩ := (chained_append 0 pre ((s, l) :: post)).mp hc
  rw [PartialRead, PartialReadFrom_append dev offset length pre _ 0 hcpre hlo]
  simp only [PartialReadFrom]
  rw [if_pos ⟨hlo, hhi⟩]

lemma PartialRead_run (dev : Nat → Nat → Bytes) (pre post : List (Nat × Nat))
    (s l offset length : Nat) (hc : Chained 0 (pre ++ (s, l) :: post))
    (hlo : s ≤ offset) (hhi : offset < s + l) :
    PartialRead dev offset length (pre ++ (s, l) :: post)
      = some (dev offset (min length (s + l - offset))) := by
  obtain ⟨hcpre, hcrest⟩ := (chained_append 0 pre ((s, l) :: post)).mp hc
  have hpre_s : runsEndFrom 0 pre ≤ s := hcrest.1
  rw [PartialRead,
    PartialReadFrom_append dev offset length pre _ 0 hcpre (by omega)]
  simp only [PartialReadFrom]
  rw [if_neg (by omega), if_pos ⟨hlo, hhi⟩]

lemma PartialRead_past (dev : Nat → Nat → Bytes) (runs : List (Nat × Nat))
    (offset length : Nat) (hc : Chained 0 runs)
    (h : runsEndFrom 0 runs ≤ offset) :
    PartialRead dev offset length runs = none := by
  have happ : runs = runs ++ [] := by simp
  rw [PartialRead, happ, PartialReadFrom_append dev offset length runs [] 0 hc h]
  rfl

lemma cursor_classify (runs : List (Nat × Nat)) (lb offset : Nat)
    (hc : Chained lb runs) (hlb : lb ≤ offset)
    (hlt : offset < runsEndFrom lb runs) :
    ∃ pre s l post, runs = pre ++ (s, l) :: post ∧
      runsEndFrom lb pre ≤ offset ∧ offset < s + l := by
  induction runs generalizing lb with
  | nil =>
    simp only [runsEndFrom] at hlt
    omega
  | cons r rest ih =>
    obtain ⟨s, l⟩ := r
    obtain ⟨hs, hc2⟩ := hc
    by_cases hcase : offset < s + l
    · exact ⟨[], s, l, rest, rfl, hlb, hcase⟩
    · have hlt2 : offset < runsEndFrom (s + l) rest := hlt
      obtain ⟨pre, s2, l2, post, heq, h1, h2⟩ := ih (s + l) hc2 (by omega) hlt2
      exact ⟨(s, l) :: pre, s2, l2, post, by rw [heq]; rfl, h1, h2⟩

lemma byteAt_gap (pre post : List (Nat × Nat)) (s l a : Nat) (mem : Nat → Nat)
    (hc : Chained 0 (pre ++ (s, l) :: post))
    (h1 : runsEndFrom 0 pre ≤ a) (h2 : a < s) :
    byteAt (pre ++ (s, l) :: post) mem a = 0 := by
  obtain ⟨hcpre, hcrest⟩ := (chained_append 0 pre ((s, l) :: post)).mp hc
  obtain ⟨hps, hcpost⟩ := hcrest
  rw [byteAt, if_neg]
  rintro ⟨r, hr, hra, hrb⟩
  rcases List.mem_append.mp hr with hp | hp
  · have := mem_end_le_runsEndFrom 0 pre hcpre r hp
    omega
  · rcases List.mem_cons.mp hp with he | he
    · subst he
      omega
    · have := le_mem_start (s + l) post hcpost r he
      omega

lemma byteAt_run (runs : List (Nat × Nat)) (s l a : Nat) (mem : Nat → Nat)
    (hr : (s, l) ∈ runs) (h1 : s ≤ a) (h2 : a < s + l) :
    byteAt runs mem a = mem a := by
  rw [byteAt, if_pos]
  exact ⟨(s, l), hr, h1, h2⟩

lemma range_map_append (f : Nat → Nat) (a b : Nat) :
    (List.range (a + b)).map f
      = (List.range a).map f ++ (List.range b).map (fun i => f (a + i)) := by
  rw [List.range_add, List.map_append, List.map_map]
  rfl

lemma min_chunk (x y a : Nat) :
    min (x + y) a = min x a + min y (a - min x a) := by
  omega

lemma map_eq_replicate_zero (n : Nat) (f : Nat → Nat)
    (h : ∀ i, i < n → f i = 0) :
    (List.range n).map f = List.replicate n 0 := by
  have hm : ∀ b ∈ (List.range n).map f, b = 0 := by
    intro b hb
    obtain ⟨i, hi, rfl⟩ := List.mem_map.mp hb
    exact h i (List.mem_range.mp hi)
  have := List.eq_replicate_of_mem hm
  simpa using this

lemma PartialRead_denote (mem : Nat → Nat) (runs : List (Nat × Nat))
    (offset length : Nat) (hc : Chained 0 runs)
    (hoff : offset < runsEndFrom 0 runs) :
    ∃ b, offset < b ∧ b ≤ runsEndFrom 0 runs ∧
      PartialRead (devOf mem) offset length runs
        = some ((List.range (min length (b - offset))).map
            (fun i => byteAt runs mem (offset + i))) := by
  obtain ⟨pre, s, l, post, heq, h1, h2⟩ :=
    cursor_classify runs 0 offset hc (Nat.zero_le offset) hoff
  subst heq
  have hsize : s + l ≤ runsEndFrom 0 (pre ++ (s, l) :: post) := by
    rw [runsEndFrom_append]
    have h3 := (chained_append 0 pre ((s, l) :: post)).mp hc
    have : runsEndFrom (runsEndFrom 0 pre) ((s, l) :: post)
        = runsEndFrom (s + l) post := rfl
    rw [this]
    exact runsEndFrom_le (s + l) post h3.2.2
  by_cases hgap : offset < s
  · refine ⟨s, hgap, by omega, ?_⟩
    rw [PartialRead_gap (devOf mem) pre post s l offset length hc h1 hgap]
    congr 1
    rw [map_eq_replicate_zero]
    intro i hi
    exact byteAt_gap pre post s l (offset + i) mem hc (by omega) (by omega)
  · refine ⟨s + l, h2, hsize, ?_⟩
    rw [PartialRead_run (devOf mem) pre post s l offset length hc
      (by omega) h2]
    congr 1
    rw [devOf]
    apply List.map_congr_left
    intro i hi
    have hi2 : i < min length (s + l - offset) := List.mem_range.mp hi
    exact (byteAt_run (pre ++ (s, l) :: post) s l (offset + i) mem
      (by simp) (by omega) (by omega)).symm

lemma PartialRead_length (dev : Nat → Nat → Bytes)
    (hdev : ∀ p n, (dev p n).length = n) (runs : List (Nat × Nat))
    (offset length : Nat) (hc : Chained 0 runs)
    (hoff : offset < runsEndFrom 0 runs) :
    ∃ b data, offset < b ∧ b ≤ runsEndFrom 0 runs ∧
      PartialRead dev offset length runs = some data ∧
      data.length = min length (b - offset) := by
  obtain ⟨pre, s, l, post, heq, h1, h2⟩ :=
    cursor_classify runs 0 offset hc (Nat.zero_le offset) hoff
  subst heq
  have hsize : s + l ≤ runsEndFrom 0 (pre ++ (s, l) :: post) := by
    rw [runsEndFrom_append]
    have h3 := (chained_append 0 pre ((s, l) :: post)).mp hc
    have : runsEndFrom (runsEndFrom 0 pre) ((s, l) :: post)
        = runsEndFrom (s + l) post := rfl
    rw [this]
    exact runsEndFrom_le (s + l) post h3.2.2
  by_cases hgap : offset < s
  · refine ⟨s, _, hgap, by omega,
      PartialRead_gap dev pre post s l offset length hc h1 hgap, ?_⟩
    simp
  · refine ⟨s + l, _, h2, hsize,
      PartialRead_run dev pre post s l offset length hc (by omega) h2, ?_⟩
    exact hdev offset (min length (s + l - offset))

lemma Read_denote (mem : Nat → Nat) (runs : List (Nat × Nat))
    (hc : Chained 0 runs) (length offset : Nat) :
    Read (devOf mem) runs (runsEndFrom 0 runs) length offset
      = ((List.range (min length (runsEndFrom 0 runs - offset))).map
           (fun i => byteAt runs mem (offset + i)),
         offset + min length (runsEndFrom 0 runs - offset)) := by
  induction length using Nat.strong_induction_on generalizing offset with
  | _ length ih =>
    by_cases h : 0 < length ∧ offset < runsEndFrom 0 runs
    · obtain ⟨b, hb1, hb2, hpd⟩ :=
        PartialRead_denote mem runs offset length hc h.2
      have hstep : readStep (devOf mem) runs offset length
          = (List.range (min length (b - offset))).map
              (fun i => byteAt runs mem (offset + i)) := by
        rw [readStep, hpd]
        rfl
      have hdlen : (readStep (devOf mem) runs offset length).length
          = min length (b - offset) := by
        rw [hstep]
        simp
      rw [Read, dif_pos h, dif_neg (by rw [hdlen]; omega)]
      rw [hdlen, hstep]
      have hrec := ih (length - min length (b - offset)) (by omega)
        (offset + min length (b - offset))
      rw [hrec]
      simp only [Prod.mk.injEq]
      constructor
      · have hsplit : min length (runsEndFrom 0 runs - offset)
            = min length (b - offset) +
              min (length - min length (b - offset))
                (runsEndFrom 0 runs - (offset + min length (b - offset))) := by
          omega
        rw [hsplit, range_map_append]
        simp only [Nat.add_assoc]
      · omega
    · rw [Read, dif_neg h]
      have h0 : min length (runsEndFrom 0 runs - offset) = 0 := by omega
      rw [h0]
      simp

lemma Read_length_min (dev : Nat → Nat → Bytes)
    (hdev : ∀ p n, (dev p n).length = n) (runs : List (Nat × Nat))
    (hc : Chained 0 runs) (length offset : Nat) :
    (Read dev runs (runsEndFrom 0 runs) length offset).1.length
        = min length (runsEndFrom 0 runs - offset) ∧
    (Read dev runs (runsEndFrom 0 runs) length offset).2
        = offset + min length (runsEndFrom 0 runs - offset) := by
  induction length using Nat.strong_induction_on generalizing offset with
  | _ length ih =>
    by_cases h : 0 < length ∧ offset < runsEndFrom 0 runs
    · obtain ⟨b, data, hb1, hb2, hpd, hdata⟩ :=
        PartialRead_length dev hdev runs offset length hc h.2
      have hdlen : (readStep dev runs offset length).length
          = min length (b - offset) := by
        rw [readStep, hpd]
        exact hdata
      rw [Read, dif_pos h, dif_neg (by rw [hdlen]; omega)]
      rw [hdlen]
      have hrec := ih (length - min length (b - offset)) (by omega)
        (offset + min length (b - offset))
      simp only [List.length_append, hdlen, hrec.1, hrec.2]
      omega
    · rw [Read, dif_neg h]
      have h0 : min length (runsEndFrom 0 runs - offset) = 0 := by omega
      simp [h0]

/-- The run-decoding loop of `WindowsMemory.__init__`, with the `self.runs`
and `self.size` accumulators (initially `[]` and `0`) made explicit:
`for x in range(number_of_runs):` unpack the next `(start, length)` pair,
`if length == 0: break`, otherwise append the run and set
`self.size = start + length`.  The `entries` list stands for the successive
`struct.unpack_from("QQ", data, x * 16 + offset)` results; indexing past the
buffer would raise `struct.error` in Python, so theorems about this loop
assume `number_of_runs ≤ entries.length`. -/
def windowsInitLoop :
    List (Nat × Nat) → Nat → List (Nat × Nat) → Nat → List (Nat × Nat) × Nat
  | _, 0, runs, size => (runs, size)
  | [], _ + 1, runs, size => (runs, size)
  | (start, length) :: rest, n + 1, runs, size =>
    if length = 0 then (runs, size)
    else windowsInitLoop rest n (runs ++ [(start, length)]) (start + length)

/-- The `(self.runs, self.size)` pair that `WindowsMemory.__init__` builds
from the driver buffer. -/
def WindowsMemory_runs_size (entries : List (Nat × Nat))
    (number_of_runs : Nat) : List (Nat × Nat) × Nat :=
  windowsInitLoop entries number_of_runs [] 0

/-- One decoded `EfiMemoryRange` struct, format `"IIQQQQ"`:
(Type, Pad, PhysicalStart, VirtualStart, NumberOfPages, Attribute). -/
structure EfiMemoryRange where
  seg_type : Nat
  pad : Nat
  physical_start : Nat
  virtual_start : Nat
  pages : Nat
  attrib : Nat

/-- `OSXMemory.page_size`. -/
def page_size : Nat := 4096

/-- `OSXMemory.valid_memory_types`, as listed in the source: Loader Code,
Loader Data, BS Code, BS Data, RTS Code, RTS Data, Conventional, ACPI Reclaim,
ACPI Memory NVS, Pal Code, Max Memory Type. -/
def valid_memory_types : List Nat := [1, 2, 3, 4, 5, 6, 7, 9, 10, 13, 14]

/-- `OSXMemory._ParseBinaryMemoryMap` over the already-unpacked descriptor
structs (the `struct.unpack_from(format_efimemoryrange, mmap, x * desc_size)`
results for `x in xrange(size / desc_size)`): keep a descriptor iff its type
is in `valid_memory_types`, turning it into the run
`(physical_start, pages * page_size)`. -/
def ParseBinaryMemoryMap : List EfiMemoryRange → List (Nat × Nat)
  | [] => []
  | d :: rest =>
    if d.seg_type ∈ valid_memory_types then
      (d.physical_start, d.pages * page_size) :: ParseBinaryMemoryMap rest
    else
      ParseBinaryMemoryMap rest

/-- The `size` property of `OSXMemory`:
`start, length = self.mmap[-1]; return start + length`.  `none` models the
`IndexError` that `self.mmap[-1]` raises on an empty map. -/
def OSXMemory_size (mmap : List (Nat × Nat)) : Option Nat :=
  mmap.getLast?.map (fun r => r.1 + r.2)

/-- The `self.base_fd` attribute that the three backend checks read, as a
function of the base handle passed to open.  All three backends call
`super().__init__`, which resolves to `MemoryVFS.__init__`; that method
executes `_ = base_fd; self.pathspec = pathspec` — it discards the passed
base handle and does not chain to the external `vfs.VFSHandler.__init__` —
so no initializer ever stores the argument on the instance and the later
`self.base_fd` lookup falls through to the class-level default of the
external base class.  That default is the constant `None`: these handlers
rely on such class-level defaults throughout (`Read` uses `self.offset`,
which nothing in this file initializes), and a non-`None` default would make
every open — including the normal top-level one — raise, leaving the
handlers unusable.  The passed handle therefore never reaches the check. -/
def MemoryVFS_init_base_fd (base_fd : Option Unit) : Option Unit :=
  none

/-- `WindowsMemory.__init__`: `if self.base_fd is not None:` raise
`IOError("Memory driver must be a top level.")`, otherwise decode the run
list from the driver buffer.  The check reads the instance's `base_fd`
attribute after `super().__init__`, i.e. `MemoryVFS_init_base_fd base_fd`,
not the open-time argument itself. -/
def WindowsMemory_init (base_fd : Option Unit) (entries : List (Nat × Nat))
    (number_of_runs : Nat) : Except String (List (Nat × Nat) × Nat) :=
  match MemoryVFS_init_base_fd base_fd with
  | some _ => Except.error "Memory driver must be a top level."
  | none => Except.ok (WindowsMemory_runs_size entries number_of_runs)

/-- `LinuxMemory.__init__`: the same check on the post-construction
`base_fd` attribute, then the whole-file backend opens the device and takes
its size (seek to end, tell). -/
def LinuxMemory_init (base_fd : Option Unit) (device_size : Nat) :
    Except String Nat :=
  match MemoryVFS_init_base_fd base_fd with
  | some _ => Except.error "Memory driver must be a top level."
  | none => Except.ok device_size

/-- `OSXMemory.__init__`: the same check on the post-construction `base_fd`
attribute, then obtain and parse the memory map. -/
def OSXMemory_init (base_fd : Option Unit) (descs : List EfiMemoryRange) :
    Except String (List (Nat × Nat)) :=
  match MemoryVFS_init_base_fd base_fd with
  | some _ => Except.error "Memory driver must be a top level."
  | none => Except.ok (ParseBinaryMemoryMap descs)

/-- The three seek modes of `seek(offset, whence)`. -/
inductive Whence where
  | seek_set
  | seek_cur
  | seek_end

/-- Modelled from the spec: the `seek` of the memory handle lives in the
external `vfs.VFSHandler` base class (of the shown sources only
`LinuxMemory.Seek` exists, and it delegates to the Python file object).  Per
the spec it sets the cursor to an absolute, relative, or end-relative
position, with no validation against `total_size`. -/
def Seek (cursor size offset : Nat) (whence : Whence) : Nat :=
  match whence with
  | Whence.seek_set => offset
  | Whence.seek_cur => cursor + offset
  | Whence.seek_end => size + offset

/-- Modelled from the spec: `tell()` returns the cursor. -/
def Tell (cursor : Nat) : Nat := cursor

/-- Issuing several reads back to back on one handle, threading the cursor
through and concatenating the returned bytes: the caller-side chunked-read
pattern that the spec's associativity property is about. -/
def ReadMany (dev : Nat → Nat → Bytes) (runs : List (Nat × Nat)) (size : Nat) :
    List Nat → Nat → Bytes × Nat
  | [], offset => ([], offset)
  | c :: cs, offset =>
    ((Read dev runs size c offset).1 ++
       (ReadMany dev runs size cs (Read dev runs size c offset).2).1,
     (ReadMany dev runs size cs (Read dev runs size c offset).2).2)

/-- Modelled from the spec's words: the allow-list of usable memory classes as
the spec enumerates them — loader code/data (EFI types 1, 2), boot-service
code/data (3, 4), runtime-service code/data (5, 6), conventional memory (7),
ACPI reclaimable (9), ACPI NVS (10) and processor-abstraction/Pal code (13).
Stated only to compare against the source's `valid_memory_types`. -/
def spec_usable_types : List Nat := [1, 2, 3, 4, 5, 6, 7, 9, 10, 13]

lemma windowsInitLoop_spec (entries : List (Nat × Nat)) (n : Nat)
    (acc : List (Nat × Nat)) (sz : Nat) (hsz : sz = lastEnd acc) :
    (windowsInitLoop entries n acc sz).1
        = acc ++ (entries.take n).takeWhile (fun r => r.2 != 0) ∧
    (windowsInitLoop entries n acc sz).2
        = lastEnd (windowsInitLoop entries n acc sz).1 := by
  induction entries generalizing n acc sz with
  | nil =>
    cases n with
    | zero => simp [windowsInitLoop, hsz]
    | succ n => simp [windowsInitLoop, hsz]
  | cons r rest ih =>
    obtain ⟨s, l⟩ := r
    cases n with
    | zero => simp [windowsInitLoop, hsz]
    | succ n =>
      by_cases hl : l = 0
      · subst hl
        simp [windowsInitLoop, List.takeWhile_cons, hsz]
      · have hacc : s + l = lastEnd (acc ++ [(s, l)]) := by
          simp [lastEnd, List.getLast?_concat]
        have hrec := ih n (acc ++ [(s, l)]) (s + l) hacc
        simp only [windowsInitLoop, if_neg hl]
        refine ⟨?_, hrec.2⟩
        rw [hrec.1]
        simp [List.takeWhile_cons, hl]

lemma Read_final_cursor (dev : Nat → Nat → Bytes) (runs : List (Nat × Nat))
    (size length offset : Nat) :
    (Read dev runs size length offset).2
      = offset + (Read dev runs size length offset).1.length := by
  induction length using Nat.strong_induction_on generalizing offset with
  | _ length ih =>
    by_cases h : 0 < length ∧ offset < size
    · rw [Read, dif_pos h]
      by_cases hd : (readStep dev runs offset length).length = 0
      · rw [dif_pos hd]
        simp
      · rw [dif_neg hd]
        have hrec := ih (length - (readStep dev runs offset length).length)
          (by omega) (offset + (readStep dev runs offset length).length)
        simp only [List.length_append]
        rw [hrec]
        omega
    · rw [Read, dif_neg h]
      simp

/-- C1: for every region map whose runs are ascending and non-overlapping and
a device that returns every byte asked of it, `Read` returns at most `length`
bytes; exactly `length` bytes when `offset + length <= total_size`; and
exactly `total_size - offset` bytes otherwise (natural subtraction, i.e.
`max(0, total_size - offset)`). -/
theorem read_returns_clamped_length (dev : Nat → Nat → Bytes)
    (runs : List (Nat × Nat)) (hdev : ∀ p n, (dev p n).length = n)
    (hc : Chained 0 runs) (offset length : Nat) :
    (Read dev runs (lastEnd runs) length offset).1.length ≤ length ∧
    (offset + length ≤ lastEnd runs →
      (Read dev runs (lastEnd runs) length offset).1.length = length) ∧
    (lastEnd runs < offset + length →
      (Read dev runs (lastEnd runs) length offset).1.length
        = lastEnd runs - offset) := by
  have h := Read_length_min dev hdev runs hc length offset
  rw [runsEndFrom_zero_eq_lastEnd] at h
  exact ⟨by rw [h.1]; omega, fun h2 => by rw [h.1]; omega,
         fun h2 => by rw [h.1]; omega⟩

/-- Witness for C1: on runs [(0,100), (200,50)] (total size 250), a read of
50 bytes from cursor 240 returns exactly 10 bytes. -/
theorem read_returns_clamped_length_witness :
    (Read (devOf (fun a => a % 251)) [(0, 100), (200, 50)]
        (lastEnd [(0, 100), (200, 50)]) 50 240).1.length = 10 := by
  have h := (read_returns_clamped_length (devOf (fun a => a % 251))
    [(0, 100), (200, 50)] (fun p n => by simp [devOf]) (by decide) 240 50).2.2
    (by decide)
  rw [h]
  decide

/-- C10: a read with requested length 0 (a non-positive Python length) or with
the cursor already at or past `total_size` returns the empty byte string and
leaves the cursor unchanged; in every case the cursor advances by exactly the
number of bytes returned. -/
theorem read_zero_and_cursor (dev : Nat → Nat → Bytes)
    (runs : List (Nat × Nat)) (size length offset : Nat) :
    (length = 0 ∨ size ≤ offset → Read dev runs size length offset = ([], offset)) ∧
    (Read dev runs size length offset).2
      = offset + (Read dev runs size length offset).1.length := by
  refine ⟨fun h0 => ?_, Read_final_cursor dev runs size length offset⟩
  rw [Read, dif_neg (by omega)]

/-- Witness for C10: a read from cursor 9 on a map of total size 5 returns
nothing and keeps the cursor at 9. -/
theorem read_zero_and_cursor_witness :
    Read (devOf (fun a => a % 251)) [(0, 5)] 5 7 9 = ([], 9) := by
  exact (read_zero_and_cursor (devOf (fun a => a % 251)) [(0, 5)] 5 7 9).1
    (Or.inr (by omega))

/-- C3: with the cursor in the gap between the end of the previous runs and
run `(s, l)`, a partial read returns only zero bytes, independent of the
device (no device read is issued); with the cursor inside `[s, s + l)` the
device is read at absolute position `cursor` for exactly
`min(length, s + l - cursor)` bytes and the result returned as-is; past the
last run the partial read returns nothing. -/
theorem partial_read_gap_zero_device (dev : Nat → Nat → Bytes)
    (pre post : List (Nat × Nat)) (s l cursor length : Nat)
    (hc : Chained 0 (pre ++ (s, l) :: post)) :
    (runsEndFrom 0 pre ≤ cursor → cursor < s →
       PartialRead dev cursor length (pre ++ (s, l) :: post)
         = some (List.replicate (min length (s - cursor)) 0)) ∧
    (s ≤ cursor → cursor < s + l →
       PartialRead dev cursor length (pre ++ (s, l) :: post)
         = some (dev cursor (min length (s + l - cursor)))) ∧
    (runsEndFrom 0 (pre ++ (s, l) :: post) ≤ cursor →
       PartialRead dev cursor length (pre ++ (s, l) :: post) = none) := by
  exact ⟨fun h1 h2 => PartialRead_gap dev pre post s l cursor length hc h1 h2,
         fun h1 h2 => PartialRead_run dev pre post s l cursor length hc h1 h2,
         fun h => PartialRead_past dev _ cursor length hc h⟩

/-- Witness for C3: on runs [(0,100), (200,50)] a partial read of 10 bytes at
cursor 150 (a gap position) yields 10 zero bytes. -/
theorem partial_read_gap_zero_device_witness :
    PartialRead (devOf (fun a => a + 1)) 150 10 [(0, 100), (200, 50)]
      = some (List.replicate 10 0) := by
  have h := (partial_read_gap_zero_device (devOf (fun a => a + 1)) [(0, 100)]
    [] 200 50 150 10 (by decide)).1 (by simp [runsEndFrom]) (by omega)
  simpa using h

/-- C2: a read whose span starts in a gap and ends inside the following run
`(s, l)` returns the zero-filled prefix reaching exactly to `s` followed by
the device bytes of that run, in that order, ending with the cursor at
`cursor + length`; and in the concrete scenario with runs [(0,100), (200,50)]
(total size 250), seek(50) then read(100) returns the 50 device bytes for
offsets 50-99 followed by 50 zero bytes for offsets 100-149, with the cursor
at 150. -/
theorem read_gap_run_order (mem : Nat → Nat) :
    (∀ pre post s l cursor length,
       Chained 0 (pre ++ (s, l) :: post) →
       runsEndFrom 0 pre ≤ cursor → cursor < s →
       s < cursor + length → cursor + length ≤ s + l →
       Read (devOf mem) (pre ++ (s, l) :: post)
           (lastEnd (pre ++ (s, l) :: post)) length cursor
         = (List.replicate (s - cursor) 0 ++ devOf mem s (cursor + length - s),
            cursor + length)) ∧
    Read (devOf mem) [(0, 100), (200, 50)] (lastEnd [(0, 100), (200, 50)])
        100 50
      = (devOf mem 50 50 ++ List.replicate 50 0, 150) := by
  constructor
  · intro pre post s l cursor length hc h1 h2 h3 h4
    rw [← runsEndFrom_zero_eq_lastEnd, Read_denote mem _ hc length cursor]
    have hsl : s + l ≤ runsEndFrom 0 (pre ++ (s, l) :: post) := by
      rw [runsEndFrom_append]
      have h5 := (chained_append 0 pre ((s, l) :: post)).mp hc
      have h6 : runsEndFrom (runsEndFrom 0 pre) ((s, l) :: post)
          = runsEndFrom (s + l) post := rfl
      rw [h6]
      exact runsEndFrom_le (s + l) post h5.2.2
    have hmin : min length (runsEndFrom 0 (pre ++ (s, l) :: post) - cursor)
        = length := by omega
    rw [hmin]
    congr 1
    have hstep1 : (List.range length).map
          (fun i => byteAt (pre ++ (s, l) :: post) mem (cursor + i))
        = (List.range ((s - cursor) + (cursor + length - s))).map
            (fun i => byteAt (pre ++ (s, l) :: post) mem (cursor + i)) := by
      have h7 : (s - cursor) + (cursor + length - s) = length := by omega
      rw [h7]
    rw [hstep1, range_map_append]
    congr 1
    · rw [map_eq_replicate_zero]
      intro i hi
      exact byteAt_gap pre post s l (cursor + i) mem hc (by omega) (by omega)
    · rw [devOf]
      apply List.map_congr_left
      intro i hi
      have hi2 : i < cursor + length - s := List.mem_range.mp hi
      have haddr : cursor + ((s - cursor) + i) = s + i := by omega
      rw [haddr, byteAt_run (pre ++ (s, l) :: post) s l (s + i) mem (by simp)
        (by omega) (by omega)]
  · rw [← runsEndFrom_zero_eq_lastEnd,
      Read_denote mem [(0, 100), (200, 50)] (by decide) 100 50]
    have hmin : min 100 (runsEndFrom 0 [(0, 100), (200, 50)] - 50) = 100 := by
      decide
    rw [hmin]
    congr 1

/-- Witness for C2: on runs [(0,100), (200,50)], a read of 60 bytes from the
gap position 150 returns 50 zero bytes followed by the 10 device bytes at
200-209, and the cursor ends at 210. -/
theorem read_gap_run_order_witness :
    Read (devOf (fun a => a + 1)) [(0, 100), (200, 50)]
        (lastEnd [(0, 100), (200, 50)]) 60 150
      = (List.replicate 50 0 ++ devOf (fun a => a + 1) 200 10, 210) := by
  have h := (read_gap_run_order (fun a => a + 1)).1 [(0, 100)] [] 200 50 150 60
    (by decide) (by simp [runsEndFrom]) (by omega) (by omega) (by omega)
  simpa using h

/-- C7: for any well-formed region map, splitting a span into successive
chunks and issuing the reads in order yields the same concatenated byte
sequence (and the same final cursor) as one single read of the whole span
from the same starting cursor. -/
theorem read_chunked_associative (mem : Nat → Nat) (runs : List (Nat × Nat))
    (hc : Chained 0 runs) (chunks : List Nat) (offset : Nat) :
    (ReadMany (devOf mem) runs (lastEnd runs) chunks offset).1
      = (Read (devOf mem) runs (lastEnd runs) chunks.sum offset).1 ∧
    (ReadMany (devOf mem) runs (lastEnd runs) chunks offset).2
      = (Read (devOf mem) runs (lastEnd runs) chunks.sum offset).2 := by
  rw [← runsEndFrom_zero_eq_lastEnd]
  induction chunks generalizing offset with
  | nil =>
    rw [List.sum_nil, Read_denote mem runs hc 0 offset]
    simp [ReadMany]
  | cons c cs ih =>
    have h1 := Read_denote mem runs hc c offset
    have h2 := ih (offset + min c (runsEndFrom 0 runs - offset))
    have h3 := Read_denote mem runs hc cs.sum
      (offset + min c (runsEndFrom 0 runs - offset))
    have h4 := Read_denote mem runs hc (c + cs.sum) offset
    have hsplit : min (c + cs.sum) (runsEndFrom 0 runs - offset)
        = min c (runsEndFrom 0 runs - offset)
          + min cs.sum (runsEndFrom 0 runs
              - (offset + min c (runsEndFrom 0 runs - offset))) := by
      omega
    simp only [ReadMany, List.sum_cons, h1]
    rw [h2.1, h2.2, h3, h4, hsplit, range_map_append]
    constructor
    · simp only [Nat.add_assoc]
    · omega

/-- Witness for C7: on runs [(0,100), (200,50)], reading 30, 50 and 40 bytes
in turn from cursor 20 concatenates to the single 120-byte read from 20. -/
theorem read_chunked_associative_witness :
    (ReadMany (devOf (fun a => a % 7)) [(0, 100), (200, 50)]
        (lastEnd [(0, 100), (200, 50)]) [30, 50, 40] 20).1
      = (Read (devOf (fun a => a % 7)) [(0, 100), (200, 50)]
          (lastEnd [(0, 100), (200, 50)]) ([30, 50, 40].sum) 20).1 := by
  exact (read_chunked_associative (fun a => a % 7) [(0, 100), (200, 50)]
    (by decide) [30, 50, 40] 20).1

/-- C4 counterexample: on an empty region map the OSX `size` property does not
return 0 — `self.mmap[-1]` raises an `IndexError` (modelled as `none`). -/
theorem size_empty_counterexample : OSXMemory_size [] ≠ some 0 := by decide

/-- C4 amended: the Windows handler's `size` is the end (start + length) of
the last run of its region map, 0 included when the map is empty (zero runs
declared or the first entry zero-length); the OSX `size` property equals the
last run's end on a non-empty map but fails (IndexError) instead of returning
0 on an empty one. -/
theorem size_eq_last_run_end (entries : List (Nat × Nat)) (n : Nat)
    (hn : n ≤ entries.length) (mmap : List (Nat × Nat)) (hm : mmap ≠ []) :
    (WindowsMemory_runs_size entries n).2
        = lastEnd (WindowsMemory_runs_size entries n).1 ∧
    OSXMemory_size mmap = some (lastEnd mmap) ∧
    OSXMemory_size [] = none := by
  refine ⟨(windowsInitLoop_spec entries n [] 0 rfl).2, ?_, rfl⟩
  cases hg : mmap.getLast? with
  | none => exact absurd (List.getLast?_eq_none_iff.mp hg) hm
  | some r =>
    rw [OSXMemory_size, lastEnd, hg]
    simp

/-- Witness for C4 (amended): concrete Windows decode of two runs and a
singleton OSX map. -/
theorem size_eq_last_run_end_witness :
    (WindowsMemory_runs_size [(0, 100), (200, 50)] 2).2
        = lastEnd (WindowsMemory_runs_size [(0, 100), (200, 50)] 2).1 ∧
    OSXMemory_size [(0, 4096)] = some (lastEnd [(0, 4096)]) ∧
    OSXMemory_size [] = none := by
  exact size_eq_last_run_end [(0, 100), (200, 50)] 2 (by decide) [(0, 4096)]
    (by decide)

/-- C5 counterexample: a descriptor of EFI type 14 ("Max Memory Type"), which
is not one of the usable memory classes the claim's allow-list enumerates,
nevertheless becomes a run. -/
theorem efi_type14_counterexample :
    ParseBinaryMemoryMap [⟨14, 0, 0, 0, 1, 0⟩] = [(0, 4096)] ∧
    14 ∉ spec_usable_types := by decide

/-- C5 amended: a descriptor becomes a run iff its type is in the source's
allow-list `valid_memory_types` — the claim's enumerated usable classes plus
EFI type 14 — and every kept descriptor contributes the run
`(physical_start, page_count * 4096)`, in descriptor order; all other types
are dropped. -/
theorem efi_decode_filter (descs : List EfiMemoryRange) :
    ParseBinaryMemoryMap descs
      = (descs.filter
            (fun d => decide (d.seg_type ∈ valid_memory_types))).map
          (fun d => (d.physical_start, d.pages * page_size)) := by
  induction descs with
  | nil => rfl
  | cons d rest ih =>
    by_cases h : d.seg_type ∈ valid_memory_types
    · simp [ParseBinaryMemoryMap, List.filter_cons, h, ih]
    · simp [ParseBinaryMemoryMap, List.filter_cons, h, ih]

/-- C6: the Windows explicit-run decode keeps exactly the longest prefix of
the first `n` driver entries that contains no zero-length entry, in driver
order — stopping at the first zero-length entry or after `n` entries,
whichever comes first — and the handle size is the end of the last kept run
(0 when none is kept). -/
theorem windows_decode_prefix (entries : List (Nat × Nat)) (n : Nat)
    (hn : n ≤ entries.length) :
    (WindowsMemory_runs_size entries n).1
        = (entries.take n).takeWhile (fun r => r.2 != 0) ∧
    (WindowsMemory_runs_size entries n).2
        = lastEnd ((entries.take n).takeWhile (fun r => r.2 != 0)) := by
  have h := windowsInitLoop_spec entries n [] 0 rfl
  have h1 : (WindowsMemory_runs_size entries n).1
      = (entries.take n).takeWhile (fun r => r.2 != 0) := by
    simpa [WindowsMemory_runs_size] using h.1
  refine ⟨h1, ?_⟩
  have h2 := h.2
  rw [h.1] at h2
  simpa [WindowsMemory_runs_size] using h2

/-- Witness for C6: four declared entries with a zero-length entry in third
position keep exactly the first two runs. -/
theorem windows_decode_prefix_witness :
    (WindowsMemory_runs_size [(0, 100), (200, 50), (300, 0), (400, 10)] 4).1
        = (([(0, 100), (200, 50), (300, 0), (400, 10)] :
              List (Nat × Nat)).take 4).takeWhile (fun r => r.2 != 0) ∧
    (WindowsMemory_runs_size [(0, 100), (200, 50), (300, 0), (400, 10)] 4).2
        = lastEnd ((([(0, 100), (200, 50), (300, 0), (400, 10)] :
              List (Nat × Nat)).take 4).takeWhile (fun r => r.2 != 0)) := by
  exact windows_decode_prefix [(0, 100), (200, 50), (300, 0), (400, 10)] 4
    (by decide)

/-- C8: seeking performs no validation against the total size — `seek(x)`
followed by `tell()` returns `x` for every `x`, including past the end — and
a read issued with the cursor at or past `total_size` returns no bytes. -/
theorem seek_tell_no_validation (size cursor x : Nat) :
    Tell (Seek cursor size x Whence.seek_set) = x ∧
    (∀ (dev : Nat → Nat → Bytes) (runs : List (Nat × Nat)) (length : Nat),
       size ≤ x →
       Read dev runs size length (Seek cursor size x Whence.seek_set)
         = ([], x)) := by
  refine ⟨rfl, fun dev runs length hx => ?_⟩
  show Read dev runs size length x = ([], x)
  rw [Read, dif_neg (by omega)]

/-- Witness for C8: seeking to 999 on a 250-byte handle, tell returns 999 and
a subsequent 40-byte read returns nothing. -/
theorem seek_tell_no_validation_witness :
    Tell (Seek 0 250 999 Whence.seek_set) = 999 ∧
    Read (devOf (fun a => a + 1)) [(0, 100), (200, 50)] 250 40
        (Seek 0 250 999 Whence.seek_set) = ([], 999) := by
  have h := seek_tell_no_validation 250 0 999
  exact ⟨h.1, h.2 (devOf (fun a => a + 1)) [(0, 100), (200, 50)] 40 (by omega)⟩

/-- C9: evaluating the open path of every backend at an arbitrary base
handle — in particular a non-null one — no IOError is raised and the region
map is built as if the handler were opened top-level: `MemoryVFS.__init__`
discards the base handle, so the `self.base_fd is not None` guard reads the
class-level `None` default and is dead code. -/
theorem open_ignores_base (base : Option Unit) (entries : List (Nat × Nat))
    (n device_size : Nat) (descs : List EfiMemoryRange) :
    WindowsMemory_init base entries n
        = Except.ok (WindowsMemory_runs_size entries n) ∧
    LinuxMemory_init base device_size = Except.ok device_size ∧
    OSXMemory_init base descs = Except.ok (ParseBinaryMemoryMap descs) := by
  exact ⟨rfl, rfl, rfl⟩
